import Mathlib

/-!
Shallow embedding of the Omok (Gomoku) repository.

The board is a flat list of cells indexed by `index = row * 15 + col`
(`BOARD_SIZE = 15`, `WIN_LENGTH = 5`; the constants from `constants.ts` are
inlined as the literals 15, 225 and 5 throughout).  A JS array read
`board[i]` is modelled by `List.get?`, so an out-of-range read (JS
`undefined`) is `Option.none` and compares unequal to every concrete cell
value, exactly as `undefined === Player.X` is false in the source.  The
in-place mutations `board[idx] = v` performed by the search are modelled by
`List.set`, threading the board value through the search so that the
"undo" writes of the source become provable restorations.

Wall-clock reads (`Date.now() - startTime > TIME_LIMIT`) are modelled by an
abstract oracle `tc : Nat → Bool` consulted at an incrementing counter, and
`Math.random()` in the fallback by an abstract natural number reduced
modulo the candidate count, so every theorem quantifies over all possible
timing and randomness behaviours.
-/

/-- Cell state, from `types.ts` (`enum Player { None, Black, White }`). -/
inductive Player where
  | None
  | Black
  | White
  deriving DecidableEq

/-- JS read `board[i]` at a possibly negative index; `Option.none` plays the
role of `undefined`. -/
def cellGet (board : List Player) (i : Int) : Option Player :=
  if i < 0 then Option.none else board.get? i.toNat

/-- `getIndex` from `gameLogic.ts`: `row * BOARD_SIZE + col`, used only at
in-range coordinates, hence the truncation to `Nat` is harmless. -/
def idxOf (r c : Int) : Nat := (r * 15 + c).toNat

/-- The coordinate `(r, c)` lies on the 15×15 board. -/
def inBoard (r c : Int) : Prop := 0 ≤ r ∧ r < 15 ∧ 0 ≤ c ∧ c < 15

instance (r c : Int) : Decidable (inBoard r c) := by
  unfold inBoard; infer_instance

/-- `DIRECTIONS` from `constants.ts`: horizontal, vertical, the two
diagonals. -/
def DIRECTIONS : List (Int × Int) := [(0, 1), (1, 0), (1, 1), (1, -1)]

/-- One directional scan of `checkWin` (`gameLogic.ts`): starting at
`(r, c)` and stepping by `(dr, dc)`, collect the indices of consecutive
cells owned by `player`, stopping at the board edge or at the first
non-matching cell; the source runs the loop for `i = 1 .. WIN_LENGTH - 1`,
so the fuel is 4. -/
def scanRun (board : List Player) (player : Player) (dr dc : Int) :
    Int → Int → Nat → List Nat
  | _, _, 0 => []
  | r, c, fuel + 1 =>
    if inBoard r c then
      if board.get? (idxOf r c) = some player then
        idxOf r c :: scanRun board player dr dc (r + dr) (c + dc) fuel
      else []
    else []

/-- The body of `checkWin`'s direction loop: scan both senses of one
direction from the anchor and report the winning line when the combined
count (anchor + both sides) reaches `WIN_LENGTH = 5`. -/
def checkWinDir (board : List Player) (player : Player) (lastRow lastCol : Int)
    (lastIdx : Nat) (d : Int × Int) : Option (List Nat) :=
  let pos := scanRun board player d.1 d.2 (lastRow + d.1) (lastCol + d.2) 4
  let neg := scanRun board player (-d.1) (-d.2) (lastRow - d.1) (lastCol - d.2) 4
  if 5 ≤ 1 + pos.length + neg.length then some (lastIdx :: pos ++ neg) else none

/-- Fold of `checkWin`'s `for (const [dRow, dCol] of DIRECTIONS)` loop:
return the first direction's winning line, if any. -/
def checkWinFrom (board : List Player) (player : Player) (lastRow lastCol : Int)
    (lastIdx : Nat) : List (Int × Int) → Option (List Nat)
  | [] => none
  | d :: ds =>
    match checkWinDir board player lastRow lastCol lastIdx d with
    | some l => some l
    | none => checkWinFrom board player lastRow lastCol lastIdx ds

/-- `checkWin` from `gameLogic.ts`: null for a negative index, otherwise
scan the four directions anchored at the last move. -/
def checkWin (board : List Player) (lastMoveIndex : Int) (player : Player) :
    Option (List Nat) :=
  if lastMoveIndex < 0 then Option.none
  else
    let n := lastMoveIndex.toNat
    checkWinFrom board player (n / 15 : Nat) (n % 15 : Nat) n DIRECTIONS

/-- `GameState` from `types.ts`. -/
structure GameState where
  board : List Player
  currentPlayer : Player
  winner : Option Player
  winningLine : Option (List Nat)
  gameActive : Bool
  deriving DecidableEq

/-- The state-update function inside `applyMove` (`App.tsx`): reject when
the game is over or the target cell is not `Empty` (an out-of-range index
reads as `undefined`, which is likewise not `Player.None`); otherwise place
the stone, run `checkWin`, and derive winner / draw / next player. -/
def applyMove (s : GameState) (index : Int) : GameState :=
  if s.gameActive = false ∨ cellGet s.board index ≠ some Player.None then s
  else
    let newBoard := s.board.set index.toNat s.currentPlayer
    let winningLine := checkWin newBoard index s.currentPlayer
    let nextPlayer := if s.currentPlayer = Player.Black then Player.White else Player.Black
    match winningLine with
    | some l =>
      { board := newBoard, currentPlayer := nextPlayer, winner := some s.currentPlayer,
        winningLine := some l, gameActive := false }
    | none =>
      if Player.None ∈ newBoard then
        { board := newBoard, currentPlayer := nextPlayer, winner := Option.none,
          winningLine := Option.none, gameActive := true }
      else
        { board := newBoard, currentPlayer := nextPlayer, winner := Option.none,
          winningLine := Option.none, gameActive := false }

namespace SCORES

/-- Heuristic score table from `aiLogic.ts` (`const SCORES`). -/
def WIN : Int := 100000000

def OPEN_4 : Int := 10000000

def CLOSED_4 : Int := 500000

def OPEN_3 : Int := 400000

def CLOSED_3 : Int := 10000

def OPEN_2 : Int := 5000

def CLOSED_2 : Int := 100

def CENTER_CONTROL : Int := 50

end SCORES

/-- `ratePattern` from `aiLogic.ts`: score of one maximal same-player run
by length and end openness. -/
def ratePattern (count : Nat) (openStart openEnd : Bool) : Int :=
  if 5 ≤ count then SCORES.WIN
  else if openStart && openEnd then
    if count = 4 then SCORES.OPEN_4
    else if count = 3 then SCORES.OPEN_3
    else if count = 2 then SCORES.OPEN_2
    else 0
  else if openStart || openEnd then
    if count = 4 then SCORES.CLOSED_4
    else if count = 3 then SCORES.CLOSED_3
    else if count = 2 then SCORES.CLOSED_2
    else 0
  else 0

/-- A move coordinate `{row, col}`, as produced and consumed by
`aiLogic.ts` (JS numbers are modelled as integers). -/
structure Move where
  row : Int
  col : Int
  deriving DecidableEq

/-- The 24 offsets of the radius-2 neighbourhood loop in
`getCandidateMoves` (`for dr in -2..2, for dc in -2..2, skipping (0,0)`),
in the source's iteration order. -/
def DELTAS : List (Int × Int) :=
  [(-2, -2), (-2, -1), (-2, 0), (-2, 1), (-2, 2),
   (-1, -2), (-1, -1), (-1, 0), (-1, 1), (-1, 2),
   (0, -2), (0, -1), (0, 1), (0, 2),
   (1, -2), (1, -1), (1, 0), (1, 1), (1, 2),
   (2, -2), (2, -1), (2, 0), (2, 1), (2, 2)]

/-- `addNeighbor` from `getCandidateMoves`: insert the cell at `(r, c)`
into the accumulated candidate set when it is on the board and `Empty`;
the JS `Set` keeps first-insertion order and deduplicates, modelled by
appending only when the index is not already present. -/
def addNeighbor (board : List Player) (acc : List Nat) (r c : Int) : List Nat :=
  if inBoard r c then
    if board.get? (idxOf r c) = some Player.None ∧ idxOf r c ∉ acc then
      acc ++ [idxOf r c]
    else acc
  else acc

/-- `occupiedIndices` from `getCandidateMoves`:
`board.map((v,i) => v !== None ? i : -1).filter(i => i !== -1)`, i.e. the
indices of non-`Empty` cells in increasing order. -/
def occupiedIndices (board : List Player) : List Nat :=
  (List.range board.length).filter fun i => board.getD i Player.None ≠ Player.None

/-- The radius-2 neighbourhood fold for a single occupied index `j`. -/
def addNeighborsOf (board : List Player) (acc : List Nat) (j : Nat) : List Nat :=
  DELTAS.foldl (fun a d => addNeighbor board a ((j / 15 : Nat) + d.1) ((j % 15 : Nat) + d.2)) acc

/-- `getCandidateMoves` from `aiLogic.ts`: the deduplicated list of empty
cells within Chebyshev distance 2 of some occupied cell, converted back to
coordinates. -/
def getCandidateMoves (board : List Player) : List Move :=
  let occupied := occupiedIndices board
  if occupied = [] then []
  else
    let idxs := occupied.foldl (addNeighborsOf board) []
    idxs.map fun i => ⟨(i / 15 : Nat), (i % 15 : Nat)⟩

/-- Extended score domain: JS numbers restricted to the integers the
engine actually produces, together with `-Infinity` (`⊥`) and `Infinity`. -/
abbrev ExtScore := WithBot (WithTop Int)

/-- JS `-Infinity`. -/
def negInf : ExtScore := ⊥

/-- JS `Infinity`. -/
def posInf : ExtScore := ((⊤ : WithTop Int) : ExtScore)

/-- Embed a finite score. -/
def toE (n : Int) : ExtScore := ((n : WithTop Int) : ExtScore)

/-- Direction vector recovered from the line step in `evaluateLine`
(`step ∈ {1, 15, 16, 14}` for row / column / the two diagonals). -/
def lineDir (step : Nat) : Int × Int :=
  if step = 1 then (0, 1)
  else if step = 15 then (1, 0)
  else if step = 16 then (1, 1)
  else if step = 14 then (1, -1)
  else (0, 0)

/-- The `while (r/c in board)` walk of `evaluateLine` collecting the cell
values of one full line; fuel 15 suffices because every line of the 15×15
board has at most 15 cells. -/
def walkLine (board : List Player) (dR dC : Int) : Int → Int → Nat → List (Option Player)
  | _, _, 0 => []
  | r, c, fuel + 1 =>
    if inBoard r c then
      cellGet board (r * 15 + c) :: walkLine board dR dC (r + dR) (c + dC) fuel
    else []

/-- The run/state-machine pass of `evaluateLine` over the collected cell
values: `consecutive` counts the current run of `player` stones and
`openStart` records whether the run was preceded by an empty cell; each
run is rated when it ends (at an empty cell, an enemy stone / `undefined`,
or the end of the line, the latter counting as blocked). -/
def scanLine (player : Player) : List (Option Player) → Nat → Bool → Int
  | [], consecutive, openStart =>
    if 0 < consecutive then ratePattern consecutive openStart false else 0
  | v :: rest, consecutive, openStart =>
    if v = some player then scanLine player rest (consecutive + 1) openStart
    else if v = some Player.None then
      (if 0 < consecutive then ratePattern consecutive openStart true else 0) +
        scanLine player rest 0 true
    else
      (if 0 < consecutive then ratePattern consecutive openStart false else 0) +
        scanLine player rest 0 false

/-- `evaluateLine` from `aiLogic.ts`. -/
def evaluateLine (board : List Player) (startIndex : Nat) (step : Nat) (player : Player) : Int :=
  let d := lineDir step
  scanLine player (walkLine board d.1 d.2 (startIndex / 15 : Nat) (startIndex % 15 : Nat) 15) 0 false

/-- `evaluateBoard` from `aiLogic.ts`: sum the line scores of all rows,
columns and both diagonal families. -/
def evaluateBoard (board : List Player) (player : Player) : Int :=
  let rows := (List.range 15).foldl (fun s r => s + evaluateLine board (r * 15) 1 player) 0
  let cols := (List.range 15).foldl (fun s c => s + evaluateLine board c 15 player) 0
  let diagDR := (List.range 15).foldl
    (fun s k => s + evaluateLine board k 16 player +
      (if 0 < k then evaluateLine board (k * 15) 16 player else 0)) 0
  let diagDL := (List.range 15).foldl
    (fun s k => s + evaluateLine board k 14 player +
      (if 0 < k then evaluateLine board ((k + 1) * 15 - 1) 14 player else 0)) 0
  rows + cols + diagDR + diagDL

/-- The net evaluation `evaluateBoard(board, White) - evaluateBoard(board,
Black)` computed at the top of `minimax`. -/
def netEval (board : List Player) : Int :=
  evaluateBoard board Player.White - evaluateBoard board Player.Black

/-- The maximizing (`isMaximizing = true`, White) candidate loop of
`minimax`: place, recurse through `child`, undo, fold `maxEval`/`alpha`,
and prune the remaining candidates once `beta ≤ alpha`.  The result triple
is (score, board after the loop, time counter). -/
def abLoopMax (child : List Player → ExtScore → ExtScore → Nat → ExtScore × List Player × Nat) :
    List Player → List Move → ExtScore → ExtScore → ExtScore → Nat →
      ExtScore × List Player × Nat
  | board, [], maxEval, _alpha, _beta, t => (maxEval, board, t)
  | board, m :: rest, maxEval, alpha, beta, t =>
    let idx := (m.row * 15 + m.col).toNat
    let r := child (board.set idx Player.White) alpha beta t
    let b3 := r.2.1.set idx Player.None
    let maxEval2 := max maxEval r.1
    let alpha2 := max alpha r.1
    if beta ≤ alpha2 then (maxEval2, b3, r.2.2)
    else abLoopMax child b3 rest maxEval2 alpha2 beta r.2.2

/-- The minimizing (Black) candidate loop of `minimax`, symmetric to
`abLoopMax`. -/
def abLoopMin (child : List Player → ExtScore → ExtScore → Nat → ExtScore × List Player × Nat) :
    List Player → List Move → ExtScore → ExtScore → ExtScore → Nat →
      ExtScore × List Player × Nat
  | board, [], minEval, _alpha, _beta, t => (minEval, board, t)
  | board, m :: rest, minEval, alpha, beta, t =>
    let idx := (m.row * 15 + m.col).toNat
    let r := child (board.set idx Player.Black) alpha beta t
    let b3 := r.2.1.set idx Player.None
    let minEval2 := min minEval r.1
    let beta2 := min beta r.1
    if beta2 ≤ alpha then (minEval2, b3, r.2.2)
    else abLoopMin child b3 rest minEval2 alpha beta2 r.2.2

/-- `minimax` from `aiLogic.ts`.  The net evaluation is computed first; a
near-certain win/loss (more than half of `SCORES.WIN` in magnitude)
returns early with a depth-damped score; then the `depth === 0 ||
timeout` cutoff (the wall-clock read is short-circuited away at depth 0);
otherwise the candidate loop for the side to move. -/
def minimax (tc : Nat → Bool) :
    List Player → Nat → ExtScore → ExtScore → Bool → Nat → ExtScore × List Player × Nat
  | board, depth, alpha, beta, isMaximizing, t =>
    let ev := netEval board
    if SCORES.WIN / 2 < ev then (toE (ev - 1000 * (10 - (depth : Int))), board, t)
    else if ev < -(SCORES.WIN / 2) then (toE (ev + 1000 * (10 - (depth : Int))), board, t)
    else
      match depth with
      | 0 => (toE ev, board, t)
      | d + 1 =>
        if tc t then (toE ev, board, t + 1)
        else
          let cands := getCandidateMoves board
          if isMaximizing then
            abLoopMax (fun b a bt u => minimax tc b d a bt false u) board cands negInf alpha beta (t + 1)
          else
            abLoopMin (fun b a bt u => minimax tc b d a bt true u) board cands posInf alpha beta (t + 1)

/-- Manhattan distance used by the root candidate sort of
`getGeminiMove`. -/
def distTo (lm m : Move) : Int := |m.row - lm.row| + |m.col - lm.col|

/-- Stable insertion of `m` after all list entries at distance ≤ its own,
modelling one step of the (stable) JS `Array.prototype.sort` with
comparator `distA - distB`. -/
def insertFar (lm : Move) (m : Move) : List Move → List Move
  | [] => [m]
  | x :: xs => if distTo lm x ≤ distTo lm m then x :: insertFar lm m xs else m :: x :: xs

/-- The `candidates.sort(...)` call of `getGeminiMove`: with no last move
the comparator returns 0 everywhere and a stable sort leaves the list
unchanged; otherwise sort ascending by Manhattan distance to the last
move. -/
def sortByDist (lastMove : Option Move) (cands : List Move) : List Move :=
  match lastMove with
  | Option.none => cands
  | some lm => cands.foldl (fun acc m => insertFar lm m acc) []

/-- The root candidate loop of `getGeminiMove`: place White, call
`minimax` for the minimizing opponent, undo, track the best-scoring move
and `alpha`, and break when the wall clock reports the time limit
exceeded. -/
def rootLoop (tc : Nat → Bool) (maxDepth : Nat) :
    List Player → List Move → Option Move → ExtScore → ExtScore → ExtScore → Nat →
      Option Move × List Player × Nat
  | board, [], best, _bestScore, _alpha, _beta, t => (best, board, t)
  | board, m :: rest, best, bestScore, alpha, beta, t =>
    let idx := (m.row * 15 + m.col).toNat
    let r := minimax tc (board.set idx Player.White) (maxDepth - 1) alpha beta false t
    let b3 := r.2.1.set idx Player.None
    let best2 := if bestScore < r.1 then some m else best
    let bestScore2 := if bestScore < r.1 then r.1 else bestScore
    let alpha2 := max alpha r.1
    if tc r.2.2 then (best2, b3, r.2.2 + 1)
    else rootLoop tc maxDepth b3 rest best2 bestScore2 alpha2 beta (r.2.2 + 1)

/-- `getGeminiMove` from `aiLogic.ts` (the `apiKey` parameter is ignored
by the source and omitted).  Returns the chosen move together with the
final state of the (mutated and restored) board argument. -/
def getGeminiMove (board : List Player) (lastMove : Option Move)
    (tc : Nat → Bool) (rnd : Nat) : Option Move × List Player :=
  let occupiedCount := (board.filter fun c => decide (c ≠ Player.None)).length
  if occupiedCount = 0 then (some ⟨7, 7⟩, board)
  else
    let candidates := getCandidateMoves board
    let maxDepth := if 20 < candidates.length then 2 else 4
    let sorted := sortByDist lastMove candidates
    let r := rootLoop tc maxDepth board sorted Option.none negInf negInf posInf 0
    let best :=
      if r.1 = Option.none ∧ sorted ≠ [] then
        some (sorted.getD (rnd % sorted.length) ⟨7, 7⟩)
      else r.1
    (best, r.2.1)

/-- The blank-key test of the security gate in the `part_003` variant of
`getGeminiMove`: `!apiKey || apiKey.trim().length === 0`.  A JS string
trims to the empty string exactly when every one of its characters is
whitespace (the empty string — the only falsy string — included), which
is the form used here because it evaluates in the kernel. -/
def apiKeyBlank (apiKey : String) : Bool := apiKey.data.all Char.isWhitespace

/-- `getGeminiMove` from `src/unnamed/part_003`: a mandatory API-key
security gate followed by the same minimax engine as `aiLogic.ts`.  The
gate first throws for a blank key, then makes a live verification call to
the remote model and throws if that call fails; the outcome of the
external call is modelled by the oracle `apiVerifyOk`.  Throws are
modelled by `Except.error` carrying the thrown message.  The engine body
is identical to `aiLogic.ts` up to the `TIME_LIMIT` constant (2000 ms
instead of 2500 ms), which the abstract clock oracle `tc` subsumes, so
the engine is shared with `getGeminiMove`. -/
def getGeminiMoveSecured (board : List Player) (lastMove : Option Move) (apiKey : String)
    (apiVerifyOk : Bool) (tc : Nat → Bool) (rnd : Nat) :
    Except String (Option Move × List Player) :=
  if apiKeyBlank apiKey then
    Except.error "SECURITY_ERR_AUTH_REQUIRED: Valid API Key is required to execute AI logic."
  else if apiVerifyOk = false then
    Except.error "SECURITY_ERR_AUTH_REQUIRED: API Key Verification Failed. Please check your settings."
  else
    Except.ok (getGeminiMove board lastMove tc rnd)

/-- A concrete one-cell-from-full state used to witness C5: every cell
Black except index 0, with White to move. -/
def drawState : GameState :=
  ⟨(List.replicate 225 Player.Black).set 0 Player.None, Player.White,
    Option.none, Option.none, true⟩

/-- A board holding an unbroken row of five White stones (row 7, columns
5–9), whose net evaluation is `SCORES.WIN`. -/
def whiteFiveBoard : List Player :=
  ((((( List.replicate 225 Player.None).set 110 Player.White).set 111 Player.White).set
      112 Player.White).set 113 Player.White).set 114 Player.White

/-- Chebyshev distance between the cells with flat indices `i` and `j`. -/
def chebN (i j : Nat) : Nat :=
  max (max (i / 15 - j / 15) (j / 15 - i / 15)) (max (i % 15 - j % 15) (j % 15 - i % 15))

/-- Index `x` is one of the neighbourhood cells generated for the occupied
index `j`: an on-board `Empty` cell one of the 24 `DELTAS` away from
`j`. -/
def nbrSpec (board : List Player) (j x : Nat) : Prop :=
  ∃ d ∈ DELTAS, inBoard ((j / 15 : Nat) + d.1) ((j % 15 : Nat) + d.2) ∧
    board.get? (idxOf ((j / 15 : Nat) + d.1) ((j % 15 : Nat) + d.2)) = some Player.None ∧
    x = idxOf ((j / 15 : Nat) + d.1) ((j % 15 : Nat) + d.2)

/-- A board with a single Black stone at the centre, used to witness
C6. -/
def oneStoneBoard : List Player := (List.replicate 225 Player.None).set 112 Player.Black

/-- The board contains a contiguous same-`player` run through the anchor
cell `(ar, ac)` along direction `(dr, dc)`: `p` cells beyond the anchor in
the positive sense and `n` in the negative sense, all on the board and all
owned by `player`. -/
def runAll (board : List Player) (player : Player) (ar ac dr dc : Int) (p n : Nat) : Prop :=
  ∀ k : Int, -(n : Int) ≤ k → k ≤ (p : Int) →
    inBoard (ar + k * dr) (ac + k * dc) ∧
    board.get? (idxOf (ar + k * dr) (ac + k * dc)) = some player

/-- A contiguous run of at least `WIN_LENGTH = 5` same-`player` cells
(anchor included) passes through the cell `anchor` along one of the four
scan directions. -/
def hasRun5 (board : List Player) (player : Player) (anchor : Nat) : Prop :=
  ∃ d ∈ DIRECTIONS, ∃ p n : Nat, 4 ≤ p + n ∧
    runAll board player ((anchor / 15 : Nat) : Int) ((anchor % 15 : Nat) : Int) d.1 d.2 p n

/-- Build a 15×15 board from a stone list. -/
def mkBoard (stones : List (Nat × Player)) : List Player :=
  stones.foldl (fun b s => b.set s.1 s.2) (List.replicate 225 Player.None)

/-- Five Black stones in a horizontal line: row 7, columns 5–9. -/
def hRunBoard : List Player :=
  mkBoard [(110, Player.Black), (111, Player.Black), (112, Player.Black),
    (113, Player.Black), (114, Player.Black)]

/-- Five Black stones in a vertical line: column 7, rows 3–7. -/
def vRunBoard : List Player :=
  mkBoard [(52, Player.Black), (67, Player.Black), (82, Player.Black),
    (97, Player.Black), (112, Player.Black)]

/-- Five Black stones on the down-right diagonal: (3,3)–(7,7). -/
def drRunBoard : List Player :=
  mkBoard [(48, Player.Black), (64, Player.Black), (80, Player.Black),
    (96, Player.Black), (112, Player.Black)]

/-- Five Black stones on the down-left diagonal: (3,11)–(7,7). -/
def dlRunBoard : List Player :=
  mkBoard [(56, Player.Black), (70, Player.Black), (84, Player.Black),
    (98, Player.Black), (112, Player.Black)]

/-- Only four Black stones in a row: row 7, columns 5–8. -/
def fourRunBoard : List Player :=
  mkBoard [(110, Player.Black), (111, Player.Black), (112, Player.Black),
    (113, Player.Black)]

/-- A would-be row of five Black stones broken by a White stone in the
middle. -/
def brokenRunBoard : List Player :=
  mkBoard [(110, Player.Black), (111, Player.Black), (112, Player.White),
    (113, Player.Black), (114, Player.Black)]


/-! ## Helper lemmas -/

lemma toE_lt_toE {a b : Int} : toE a < toE b ↔ a < b := by
  simp only [toE]
  rw [WithBot.coe_lt_coe, WithTop.coe_lt_coe]

/-- Unfolding equation of `minimax` (it is defined by a simultaneous match
on its non-fixed arguments). -/
lemma minimax_eq (tc : Nat → Bool) (board : List Player) (depth : Nat)
    (alpha beta : ExtScore) (isMaximizing : Bool) (t : Nat) :
    minimax tc board depth alpha beta isMaximizing t =
      if SCORES.WIN / 2 < netEval board then
        (toE (netEval board - 1000 * (10 - (depth : Int))), board, t)
      else if netEval board < -(SCORES.WIN / 2) then
        (toE (netEval board + 1000 * (10 - (depth : Int))), board, t)
      else
        match depth with
        | 0 => (toE (netEval board), board, t)
        | d + 1 =>
          if tc t then (toE (netEval board), board, t + 1)
          else
            let cands := getCandidateMoves board
            if isMaximizing then
              abLoopMax (fun b a bt u => minimax tc b d a bt false u) board cands negInf alpha
                beta (t + 1)
            else
              abLoopMin (fun b a bt u => minimax tc b d a bt true u) board cands posInf alpha
                beta (t + 1) := by
  rw [minimax.eq_def]

/-! ## Claim theorems (with their witnesses) -/

/-- Claim C7: the pattern-score lookup `ratePattern` matches the spec's
table (count ≥ 5 is WIN regardless of ends; 4/3/2 with both ends open are
OPEN_4/OPEN_3/OPEN_2; 4/3/2 with exactly one end open are
CLOSED_4/CLOSED_3/CLOSED_2; a run blocked at both ends — below length 5 —
or of length 1 scores 0), and the score constants are strictly ordered
WIN > OPEN_4 > CLOSED_4 > OPEN_3 > CLOSED_3 > OPEN_2 > CLOSED_2 > 0. -/
theorem spec_C7_pattern_scores :
    (∀ (c : Nat) (os oe : Bool), 5 ≤ c → ratePattern c os oe = SCORES.WIN) ∧
    (ratePattern 4 true true = SCORES.OPEN_4 ∧ ratePattern 3 true true = SCORES.OPEN_3 ∧
      ratePattern 2 true true = SCORES.OPEN_2) ∧
    (ratePattern 4 true false = SCORES.CLOSED_4 ∧ ratePattern 4 false true = SCORES.CLOSED_4 ∧
      ratePattern 3 true false = SCORES.CLOSED_3 ∧ ratePattern 3 false true = SCORES.CLOSED_3 ∧
      ratePattern 2 true false = SCORES.CLOSED_2 ∧ ratePattern 2 false true = SCORES.CLOSED_2) ∧
    (∀ c : Nat, c < 5 → ratePattern c false false = 0) ∧
    (∀ os oe : Bool, ratePattern 1 os oe = 0) ∧
    (SCORES.OPEN_4 < SCORES.WIN ∧ SCORES.CLOSED_4 < SCORES.OPEN_4 ∧
      SCORES.OPEN_3 < SCORES.CLOSED_4 ∧ SCORES.CLOSED_3 < SCORES.OPEN_3 ∧
      SCORES.OPEN_2 < SCORES.CLOSED_3 ∧ SCORES.CLOSED_2 < SCORES.OPEN_2 ∧
      0 < SCORES.CLOSED_2) := by
  refine ⟨?_, by decide, by decide, ?_, by decide, by decide⟩
  · intro c os oe h
    unfold ratePattern
    rw [if_pos h]
  · intro c h
    unfold ratePattern
    rw [if_neg (by omega)]
    simp

/-- Witness for C7 at concrete inputs. -/
theorem spec_C7_pattern_scores_witness :
    ratePattern 7 true false = SCORES.WIN ∧ ratePattern 3 false false = 0 :=
  ⟨spec_C7_pattern_scores.1 7 true false (by decide),
   spec_C7_pattern_scores.2.2.2.1 3 (by decide)⟩

/-- Claim C4: a proposed move whose target cell is not `Empty`, whose
index is out of range (such an index reads as `undefined`, modelled
`Option.none`, hence is not an `Empty` cell), or which arrives when the
game is no longer active, leaves every field of the `GameState`
unchanged. -/
theorem spec_C4_illegal_move_rejected :
    (∀ (s : GameState) (index : Int),
        s.gameActive = false ∨ cellGet s.board index ≠ some Player.None →
        (applyMove s index).board = s.board ∧
        (applyMove s index).currentPlayer = s.currentPlayer ∧
        (applyMove s index).winner = s.winner ∧
        (applyMove s index).winningLine = s.winningLine ∧
        (applyMove s index).gameActive = s.gameActive) ∧
    (∀ (board : List Player) (index : Int),
        index < 0 ∨ (board.length : Int) ≤ index → cellGet board index = Option.none) := by
  constructor
  · intro s index h
    unfold applyMove
    rw [if_pos h]
    exact ⟨rfl, rfl, rfl, rfl, rfl⟩
  · intro board index h
    unfold cellGet
    rcases h with h | h
    · rw [if_pos h]
    · rw [if_neg (by omega)]
      rw [List.get?_eq_none]
      omega

/-- Witness for C4: a move into an occupied cell of a live game, and an
out-of-range read. -/
theorem spec_C4_illegal_move_rejected_witness :
    ((applyMove ⟨[Player.Black], Player.White, Option.none, Option.none, true⟩ 0).board
        = [Player.Black] ∧
      (applyMove ⟨[Player.Black], Player.White, Option.none, Option.none, true⟩ 0).currentPlayer
        = Player.White ∧
      (applyMove ⟨[Player.Black], Player.White, Option.none, Option.none, true⟩ 0).winner
        = Option.none ∧
      (applyMove ⟨[Player.Black], Player.White, Option.none, Option.none, true⟩ 0).winningLine
        = Option.none ∧
      (applyMove ⟨[Player.Black], Player.White, Option.none, Option.none, true⟩ 0).gameActive
        = true) ∧
    cellGet [Player.Black] 5 = Option.none :=
  ⟨spec_C4_illegal_move_rejected.1 ⟨[Player.Black], Player.White, Option.none, Option.none, true⟩
      0 (Or.inr (by decide)),
   spec_C4_illegal_move_rejected.2 [Player.Black] 5 (Or.inr (by decide))⟩

/-- Unfolding of `applyMove` on an accepted move (live game, empty target
cell). -/
lemma applyMove_accept_eq (s : GameState) (index : Int)
    (hact : s.gameActive = true) (hcell : cellGet s.board index = some Player.None) :
    applyMove s index =
      match checkWin (s.board.set index.toNat s.currentPlayer) index s.currentPlayer with
      | some l =>
        ⟨s.board.set index.toNat s.currentPlayer,
          (if s.currentPlayer = Player.Black then Player.White else Player.Black),
          some s.currentPlayer, some l, false⟩
      | none =>
        if Player.None ∈ s.board.set index.toNat s.currentPlayer then
          ⟨s.board.set index.toNat s.currentPlayer,
            (if s.currentPlayer = Player.Black then Player.White else Player.Black),
            Option.none, Option.none, true⟩
        else
          ⟨s.board.set index.toNat s.currentPlayer,
            (if s.currentPlayer = Player.Black then Player.White else Player.Black),
            Option.none, Option.none, false⟩ := by
  unfold applyMove
  rw [if_neg (by simp [hact, hcell])]

/-- Claim C10: an accepted move always hands `currentPlayer` to the
opponent of the mover (the source computes `nextPlayer` unconditionally),
including when the move ends the game; consequently a `Win` outcome names
a winner different from the resulting `currentPlayer`. -/
theorem spec_C10_turn_alternation :
    ∀ (s : GameState) (index : Int),
      s.gameActive = true →
      cellGet s.board index = some Player.None →
      (applyMove s index).currentPlayer
          = (if s.currentPlayer = Player.Black then Player.White else Player.Black) ∧
      (s.currentPlayer ≠ Player.None →
        ∀ w, (applyMove s index).winner = some w → (applyMove s index).currentPlayer ≠ w) := by
  intro s index hact hcell
  rw [applyMove_accept_eq s index hact hcell]
  cases hwl : checkWin (s.board.set index.toNat s.currentPlayer) index s.currentPlayer with
  | none =>
    dsimp only
    constructor
    · split <;> rfl
    · intro hcp w hw
      revert hw
      split <;> simp
  | some l =>
    dsimp only
    refine ⟨rfl, ?_⟩
    intro hcp w hw
    simp only [Option.some.injEq] at hw
    subst hw
    cases hp : s.currentPlayer <;> simp_all

/-- Witness for C10: Black moves on a live board and White is to move
next. -/
theorem spec_C10_turn_alternation_witness :
    (applyMove ⟨[Player.None], Player.Black, Option.none, Option.none, true⟩ 0).currentPlayer
        = (if (Player.Black : Player) = Player.Black then Player.White else Player.Black) ∧
      (Player.Black ≠ Player.None →
        ∀ w, (applyMove ⟨[Player.None], Player.Black, Option.none, Option.none, true⟩ 0).winner
            = some w →
          (applyMove ⟨[Player.None], Player.Black, Option.none, Option.none, true⟩ 0).currentPlayer
            ≠ w) :=
  spec_C10_turn_alternation ⟨[Player.None], Player.Black, Option.none, Option.none, true⟩ 0
    rfl (by decide)

/-- Claim C5: an accepted move that fills the last `Empty` cell and for
which `checkWin` finds no win produces a terminal draw state: `gameActive`
is false and `winner` is null. -/
theorem spec_C5_draw_on_full_board :
    ∀ (s : GameState) (index : Int),
      s.gameActive = true →
      cellGet s.board index = some Player.None →
      checkWin (s.board.set index.toNat s.currentPlayer) index s.currentPlayer = Option.none →
      Player.None ∉ s.board.set index.toNat s.currentPlayer →
      (applyMove s index).gameActive = false ∧ (applyMove s index).winner = Option.none := by
  intro s index hact hcell hwin hfull
  rw [applyMove_accept_eq s index hact hcell]
  simp only [hwin]
  rw [if_neg hfull]
  exact ⟨rfl, rfl⟩

/-- Witness for C5: White fills the last empty cell, no win line passes
through it, and the resulting state is a draw. -/
theorem spec_C5_draw_on_full_board_witness :
    (applyMove drawState 0).gameActive = false ∧ (applyMove drawState 0).winner = Option.none :=
  spec_C5_draw_on_full_board drawState 0 rfl (by decide) (by decide) (by decide)

/-- Claim C9: on the all-`Empty` board, `getGeminiMove` returns the centre
move (7, 7), for every last-move argument and every timing and randomness
behaviour (in particular the result does not depend on the search at
all). -/
theorem spec_C9_opening_center :
    ∀ (lastMove : Option Move) (tc : Nat → Bool) (rnd : Nat),
      (getGeminiMove (List.replicate 225 Player.None) lastMove tc rnd).1
        = some ⟨7, 7⟩ := by
  intro lastMove tc rnd
  rfl

/-- Claim C8: whenever the net evaluation exceeds `WIN / 2`, `minimax`
returns `e - 1000 * (10 - depth)` regardless of alpha, beta, side to move
or timing, and symmetrically `e + 1000 * (10 - depth)` below `-WIN / 2`;
hence for a fixed winning evaluation the score strictly increases with
remaining depth and for a fixed losing evaluation it strictly
decreases. -/
theorem spec_C8_depth_damped_scores :
    (∀ (board : List Player) (d : Nat) (alpha beta : ExtScore) (mx : Bool)
        (tc : Nat → Bool) (t : Nat), SCORES.WIN / 2 < netEval board →
        (minimax tc board d alpha beta mx t).1
          = toE (netEval board - 1000 * (10 - (d : Int)))) ∧
    (∀ (board : List Player) (d : Nat) (alpha beta : ExtScore) (mx : Bool)
        (tc : Nat → Bool) (t : Nat), netEval board < -(SCORES.WIN / 2) →
        (minimax tc board d alpha beta mx t).1
          = toE (netEval board + 1000 * (10 - (d : Int)))) ∧
    (∀ (board : List Player) (d1 d2 : Nat) (alpha beta : ExtScore) (mx : Bool)
        (tc : Nat → Bool) (t : Nat), d1 < d2 → SCORES.WIN / 2 < netEval board →
        (minimax tc board d1 alpha beta mx t).1 < (minimax tc board d2 alpha beta mx t).1) ∧
    (∀ (board : List Player) (d1 d2 : Nat) (alpha beta : ExtScore) (mx : Bool)
        (tc : Nat → Bool) (t : Nat), d1 < d2 → netEval board < -(SCORES.WIN / 2) →
        (minimax tc board d2 alpha beta mx t).1 < (minimax tc board d1 alpha beta mx t).1) := by
  have hwin : ∀ (board : List Player) (d : Nat) (alpha beta : ExtScore) (mx : Bool)
      (tc : Nat → Bool) (t : Nat), SCORES.WIN / 2 < netEval board →
      (minimax tc board d alpha beta mx t).1
        = toE (netEval board - 1000 * (10 - (d : Int))) := by
    intro board d alpha beta mx tc t h
    rw [minimax_eq, if_pos h]
  have hloss : ∀ (board : List Player) (d : Nat) (alpha beta : ExtScore) (mx : Bool)
      (tc : Nat → Bool) (t : Nat), netEval board < -(SCORES.WIN / 2) →
      (minimax tc board d alpha beta mx t).1
        = toE (netEval board + 1000 * (10 - (d : Int))) := by
    intro board d alpha beta mx tc t h
    have h0 : SCORES.WIN = 100000000 := rfl
    rw [minimax_eq, if_neg (by omega), if_pos h]
  refine ⟨hwin, hloss, ?_, ?_⟩
  · intro board d1 d2 alpha beta mx tc t hd h
    rw [hwin board d1 alpha beta mx tc t h, hwin board d2 alpha beta mx tc t h, toE_lt_toE]
    omega
  · intro board d1 d2 alpha beta mx tc t hd h
    rw [hloss board d1 alpha beta mx tc t h, hloss board d2 alpha beta mx tc t h, toE_lt_toE]
    omega

/-- Witness for C8: on `whiteFiveBoard` the early return fires at depths 2
and 3 with the stated damped scores, and the depth-3 score is strictly
larger. -/
theorem spec_C8_depth_damped_scores_witness :
    (minimax (fun _ => false) whiteFiveBoard 2 negInf posInf false 0).1
        = toE (netEval whiteFiveBoard - 1000 * (10 - (2 : Int))) ∧
      (minimax (fun _ => false) whiteFiveBoard 2 negInf posInf false 0).1
        < (minimax (fun _ => false) whiteFiveBoard 3 negInf posInf false 0).1 :=
  ⟨spec_C8_depth_damped_scores.1 whiteFiveBoard 2 negInf posInf false (fun _ => false) 0
      (by decide),
   spec_C8_depth_damped_scores.2.2.1 whiteFiveBoard 2 3 negInf posInf false (fun _ => false) 0
      (by decide) (by decide)⟩

/-! ## Candidate generator: membership characterization -/

lemma mem_addNeighbor {board : List Player} {acc : List Nat} {r c : Int} {x : Nat} :
    x ∈ addNeighbor board acc r c ↔
      x ∈ acc ∨ (inBoard r c ∧ board.get? (idxOf r c) = some Player.None ∧ x = idxOf r c) := by
  unfold addNeighbor
  split_ifs with h1 h2
  · simp only [List.mem_append, List.mem_singleton]
    constructor
    · rintro (h | h)
      · exact Or.inl h
      · exact Or.inr ⟨h1, h2.1, h⟩
    · rintro (h | h)
      · exact Or.inl h
      · exact Or.inr h.2.2
  · constructor
    · exact Or.inl
    · rintro (h | ⟨-, hemp, hx⟩)
      · exact h
      · rcases not_and_or.mp h2 with h | h
        · exact absurd hemp h
        · rw [hx]; exact not_not.mp h
  · constructor
    · exact Or.inl
    · rintro (h | ⟨hb, -, -⟩)
      · exact h
      · exact absurd hb h1

lemma nodup_addNeighbor {board : List Player} {acc : List Nat} {r c : Int}
    (h : acc.Nodup) : (addNeighbor board acc r c).Nodup := by
  unfold addNeighbor
  split_ifs with h1 h2
  · exact List.Nodup.append h (List.nodup_singleton _) (by simpa using h2.2)
  · exact h
  · exact h

lemma mem_foldl_addNeighbor (board : List Player) (rj cj : Int) (ds : List (Int × Int)) :
    ∀ (acc : List Nat) (x : Nat),
      x ∈ ds.foldl (fun a d => addNeighbor board a (rj + d.1) (cj + d.2)) acc ↔
        x ∈ acc ∨ ∃ d ∈ ds, inBoard (rj + d.1) (cj + d.2) ∧
          board.get? (idxOf (rj + d.1) (cj + d.2)) = some Player.None ∧
          x = idxOf (rj + d.1) (cj + d.2) := by
  induction ds with
  | nil => simp
  | cons d ds ih =>
    intro acc x
    rw [List.foldl_cons, ih, mem_addNeighbor]
    simp only [List.mem_cons]
    constructor
    · rintro ((h | h) | ⟨e, he, h⟩)
      · exact Or.inl h
      · exact Or.inr ⟨d, Or.inl rfl, h⟩
      · exact Or.inr ⟨e, Or.inr he, h⟩
    · rintro (h | ⟨e, (rfl | he), h⟩)
      · exact Or.inl (Or.inl h)
      · exact Or.inl (Or.inr h)
      · exact Or.inr ⟨e, he, h⟩

lemma nodup_foldl_addNeighbor (board : List Player) (rj cj : Int) (ds : List (Int × Int)) :
    ∀ acc : List Nat, acc.Nodup →
      (ds.foldl (fun a d => addNeighbor board a (rj + d.1) (cj + d.2)) acc).Nodup := by
  induction ds with
  | nil => intro acc h; simpa using h
  | cons d ds ih =>
    intro acc h
    rw [List.foldl_cons]
    exact ih _ (nodup_addNeighbor h)

lemma mem_addNeighborsOf {board : List Player} {acc : List Nat} {j x : Nat} :
    x ∈ addNeighborsOf board acc j ↔ x ∈ acc ∨ nbrSpec board j x := by
  unfold addNeighborsOf nbrSpec
  exact mem_foldl_addNeighbor board _ _ DELTAS acc x

lemma mem_foldl_addNeighborsOf (board : List Player) (js : List Nat) :
    ∀ (acc : List Nat) (x : Nat),
      x ∈ js.foldl (addNeighborsOf board) acc ↔
        x ∈ acc ∨ ∃ j ∈ js, nbrSpec board j x := by
  induction js with
  | nil => simp
  | cons j js ih =>
    intro acc x
    rw [List.foldl_cons, ih, mem_addNeighborsOf]
    simp only [List.mem_cons]
    constructor
    · rintro ((h | h) | ⟨e, he, h⟩)
      · exact Or.inl h
      · exact Or.inr ⟨j, Or.inl rfl, h⟩
      · exact Or.inr ⟨e, Or.inr he, h⟩
    · rintro (h | ⟨e, (rfl | he), h⟩)
      · exact Or.inl (Or.inl h)
      · exact Or.inl (Or.inr h)
      · exact Or.inr ⟨e, he, h⟩

lemma nodup_foldl_addNeighborsOf (board : List Player) (js : List Nat) :
    ∀ acc : List Nat, acc.Nodup → (js.foldl (addNeighborsOf board) acc).Nodup := by
  induction js with
  | nil => intro acc h; simpa using h
  | cons j js ih =>
    intro acc h
    rw [List.foldl_cons]
    exact ih _ (by unfold addNeighborsOf; exact nodup_foldl_addNeighbor board _ _ DELTAS acc h)

lemma mem_occupiedIndices {board : List Player} {j : Nat} :
    j ∈ occupiedIndices board ↔ j < board.length ∧ board.getD j Player.None ≠ Player.None := by
  unfold occupiedIndices
  rw [List.mem_filter, List.mem_range]
  simp

lemma mem_getCandidateMoves {board : List Player} {m : Move} :
    m ∈ getCandidateMoves board ↔
      ∃ x : Nat, (∃ j ∈ occupiedIndices board, nbrSpec board j x) ∧
        m = ⟨((x / 15 : Nat) : Int), ((x % 15 : Nat) : Int)⟩ := by
  unfold getCandidateMoves
  dsimp only
  split_ifs with h
  · simp only [List.not_mem_nil, false_iff, not_exists]
    rintro x ⟨⟨j, hj, -⟩, -⟩
    rw [h] at hj
    exact absurd hj (List.not_mem_nil j)
  · rw [List.mem_map]
    constructor
    · rintro ⟨x, hx, rfl⟩
      rw [mem_foldl_addNeighborsOf] at hx
      rcases hx with hx | hx
      · exact absurd hx (List.not_mem_nil x)
      · exact ⟨x, hx, rfl⟩
    · rintro ⟨x, hx, rfl⟩
      refine ⟨x, ?_, rfl⟩
      rw [mem_foldl_addNeighborsOf]
      exact Or.inr hx

lemma nodup_getCandidateMoves (board : List Player) : (getCandidateMoves board).Nodup := by
  unfold getCandidateMoves
  dsimp only
  split_ifs with h
  · exact List.nodup_nil
  · refine List.Nodup.map ?_ (nodup_foldl_addNeighborsOf board _ [] List.nodup_nil)
    intro a b hab
    simp only [Move.mk.injEq, Nat.cast_inj] at hab
    omega

lemma mem_DELTAS_iff (d : Int × Int) :
    d ∈ DELTAS ↔ -2 ≤ d.1 ∧ d.1 ≤ 2 ∧ -2 ≤ d.2 ∧ d.2 ≤ 2 ∧ ¬(d.1 = 0 ∧ d.2 = 0) := by
  constructor
  · intro hd
    fin_cases hd <;> norm_num
  · obtain ⟨a, b⟩ := d
    rintro ⟨h1, h2, h3, h4, h5⟩
    simp only at h1 h2 h3 h4 h5
    interval_cases a <;> interval_cases b <;> simp_all [DELTAS]

/-- Reformulation of `nbrSpec` through the Chebyshev distance: `x` is an
on-board `Empty` cell within Chebyshev distance 2 of cell `j` and distinct
from it. -/
lemma nbrSpec_iff {board : List Player} {j x : Nat} (hj : j < 225) :
    nbrSpec board j x ↔
      x < 225 ∧ board.get? x = some Player.None ∧ chebN x j ≤ 2 ∧ x ≠ j := by
  unfold nbrSpec
  constructor
  · rintro ⟨d, hd, hb, hemp, rfl⟩
    rw [mem_DELTAS_iff] at hd
    obtain ⟨hd1, hd2, hd3, hd4, hd5⟩ := hd
    obtain ⟨ha, hb1, hc, hd6⟩ := hb
    have hx : idxOf ((j / 15 : Nat) + d.1) ((j % 15 : Nat) + d.2)
        = ((j / 15 : Nat) + d.1).toNat * 15 + ((j % 15 : Nat) + d.2).toNat := by
      unfold idxOf; omega
    refine ⟨by omega, ?_, ?_, ?_⟩
    · rwa [hx] at hemp ⊢
      -- the rewrite closes nothing further; keep the hypothesis form
    · unfold chebN
      omega
    · intro hEq
      rw [hx] at hEq
      omega
  · rintro ⟨hx, hemp, hcheb, hne⟩
    refine ⟨(((x / 15 : Nat) : Int) - ((j / 15 : Nat) : Int),
        ((x % 15 : Nat) : Int) - ((j % 15 : Nat) : Int)), ?_, ?_, ?_, ?_⟩
    · rw [mem_DELTAS_iff]
      unfold chebN at hcheb
      constructor
      · simp only; omega
      · refine ⟨by simp only; omega, by simp only; omega, by simp only; omega, ?_⟩
        simp only
        rintro ⟨h1, h2⟩
        exact hne (by omega)
    · unfold inBoard
      simp only
      omega
    · have hx2 : idxOf ((j / 15 : Nat) + (((x / 15 : Nat) : Int) - ((j / 15 : Nat) : Int)))
          ((j % 15 : Nat) + (((x % 15 : Nat) : Int) - ((j % 15 : Nat) : Int))) = x := by
        unfold idxOf; omega
      rwa [hx2]
    · unfold idxOf
      omega

lemma getD_none_iff {board : List Player} {i : Nat} (hi : i < board.length) :
    board.getD i Player.None = Player.None ↔ board.get? i = some Player.None := by
  rw [List.getD_eq_getD_get?, List.get?_eq_get hi]
  simp

/-- Claim C6: for a 15×15 board, `getCandidateMoves` returns, without
duplicates, exactly the coordinates of the in-range `Empty` cells lying at
Chebyshev distance at most 2 from some occupied cell; and when no cell is
occupied it returns the empty list. -/
theorem spec_C6_candidate_moves (board : List Player) (hlen : board.length = 225) :
    (getCandidateMoves board).Nodup ∧
    (∀ m : Move, m ∈ getCandidateMoves board ↔
      ∃ i : Nat, i < 225 ∧ m = ⟨((i / 15 : Nat) : Int), ((i % 15 : Nat) : Int)⟩ ∧
        board.getD i Player.None = Player.None ∧
        ∃ j : Nat, j < 225 ∧ board.getD j Player.None ≠ Player.None ∧ chebN i j ≤ 2) ∧
    ((∀ j : Nat, j < 225 → board.getD j Player.None = Player.None) →
      getCandidateMoves board = []) := by
  refine ⟨nodup_getCandidateMoves board, ?_, ?_⟩
  · intro m
    rw [mem_getCandidateMoves]
    constructor
    · rintro ⟨x, ⟨j, hj, hnbr⟩, rfl⟩
      rw [mem_occupiedIndices] at hj
      have hj225 : j < 225 := by omega
      rw [nbrSpec_iff hj225] at hnbr
      obtain ⟨hx, hemp, hcheb, -⟩ := hnbr
      exact ⟨x, hx, rfl, (getD_none_iff (by omega)).mpr hemp, j, hj225, hj.2, hcheb⟩
    · rintro ⟨i, hi, rfl, hemp, j, hj, hocc, hcheb⟩
      refine ⟨i, ⟨j, ?_, ?_⟩, rfl⟩
      · rw [mem_occupiedIndices]
        exact ⟨by omega, hocc⟩
      · rw [nbrSpec_iff hj]
        refine ⟨hi, (getD_none_iff (by omega)).mp hemp, hcheb, ?_⟩
        intro hEq
        rw [hEq] at hemp
        exact hocc hemp
  · intro h
    have hocc : occupiedIndices board = [] := by
      unfold occupiedIndices
      rw [List.filter_eq_nil_iff]
      intro a ha
      rw [List.mem_range] at ha
      have hD := h a (by omega)
      rw [List.getD_eq_getD_get?, List.get?_eq_getElem?] at hD
      simp [hD]
    unfold getCandidateMoves
    rw [hocc]
    rfl

/-- Witness for C6 on the one-stone board. -/
theorem spec_C6_candidate_moves_witness :
    (getCandidateMoves oneStoneBoard).Nodup ∧
    (∀ m : Move, m ∈ getCandidateMoves oneStoneBoard ↔
      ∃ i : Nat, i < 225 ∧ m = ⟨((i / 15 : Nat) : Int), ((i % 15 : Nat) : Int)⟩ ∧
        oneStoneBoard.getD i Player.None = Player.None ∧
        ∃ j : Nat, j < 225 ∧ oneStoneBoard.getD j Player.None ≠ Player.None ∧ chebN i j ≤ 2) ∧
    ((∀ j : Nat, j < 225 → oneStoneBoard.getD j Player.None = Player.None) →
      getCandidateMoves oneStoneBoard = []) :=
  spec_C6_candidate_moves oneStoneBoard
    (by unfold oneStoneBoard; rw [List.length_set, List.length_replicate])

/-! ## Board restoration (undo integrity) -/

lemma set_get?_self {board : List Player} {n : Nat} {v : Player}
    (h : board.get? n = some v) : board.set n v = board := by
  induction board generalizing n with
  | nil => simp at h
  | cons a l ih =>
    cases n with
    | zero =>
      simp only [List.get?_cons_zero, Option.some.injEq] at h
      simp [h]
    | succ k =>
      simp only [List.get?_cons_succ] at h
      simp [ih h]

lemma candidate_cell_empty {board : List Player} {m : Move}
    (h : m ∈ getCandidateMoves board) :
    board.get? ((m.row * 15 + m.col).toNat) = some Player.None := by
  rw [mem_getCandidateMoves] at h
  obtain ⟨x, ⟨j, -, hnbr⟩, rfl⟩ := h
  obtain ⟨d, -, -, hemp, hx⟩ := hnbr
  rw [← hx] at hemp
  show board.get? (((((x / 15 : Nat) : Int)) * 15 + ((x % 15 : Nat) : Int)).toNat)
      = some Player.None
  rw [show ((((x / 15 : Nat) : Int)) * 15 + ((x % 15 : Nat) : Int)).toNat = x from by omega]
  exact hemp

lemma mem_insertFar {lm m x : Move} {l : List Move} :
    x ∈ insertFar lm m l ↔ x = m ∨ x ∈ l := by
  induction l with
  | nil => simp [insertFar]
  | cons a l ih =>
    unfold insertFar
    split_ifs with h
    · simp only [List.mem_cons, ih]
      tauto
    · simp only [List.mem_cons]

lemma mem_sortByDist {lastMove : Option Move} {cands : List Move} {m : Move} :
    m ∈ sortByDist lastMove cands ↔ m ∈ cands := by
  cases lastMove with
  | none => rfl
  | some lm =>
    show m ∈ cands.foldl (fun acc x => insertFar lm x acc) [] ↔ m ∈ cands
    have aux : ∀ (l : List Move) (acc : List Move),
        m ∈ l.foldl (fun acc x => insertFar lm x acc) acc ↔ m ∈ acc ∨ m ∈ l := by
      intro l
      induction l with
      | nil => simp
      | cons a l ih =>
        intro acc
        rw [List.foldl_cons, ih, mem_insertFar]
        simp only [List.mem_cons]
        tauto
    rw [aux cands []]
    simp

lemma abLoopMax_board_eq
    (child : List Player → ExtScore → ExtScore → Nat → ExtScore × List Player × Nat)
    (hchild : ∀ b a bt u, (child b a bt u).2.1 = b) :
    ∀ (ms : List Move) (board : List Player) (mEv alpha beta : ExtScore) (t : Nat),
      (∀ m ∈ ms, board.get? ((m.row * 15 + m.col).toNat) = some Player.None) →
      (abLoopMax child board ms mEv alpha beta t).2.1 = board := by
  intro ms
  induction ms with
  | nil => intro board mEv alpha beta t _; rfl
  | cons m rest ih =>
    intro board mEv alpha beta t hms
    have hempty := hms m (List.mem_cons_self m rest)
    have hrestore :
        ((child (board.set ((m.row * 15 + m.col).toNat) Player.White) alpha beta t).2.1).set
            ((m.row * 15 + m.col).toNat) Player.None = board := by
      rw [hchild, List.set_set, set_get?_self hempty]
    unfold abLoopMax
    dsimp only
    rw [hrestore]
    split_ifs with h
    · rfl
    · exact ih board _ _ _ _ (fun x hx => hms x (List.mem_cons_of_mem m hx))

lemma abLoopMin_board_eq
    (child : List Player → ExtScore → ExtScore → Nat → ExtScore × List Player × Nat)
    (hchild : ∀ b a bt u, (child b a bt u).2.1 = b) :
    ∀ (ms : List Move) (board : List Player) (mEv alpha beta : ExtScore) (t : Nat),
      (∀ m ∈ ms, board.get? ((m.row * 15 + m.col).toNat) = some Player.None) →
      (abLoopMin child board ms mEv alpha beta t).2.1 = board := by
  intro ms
  induction ms with
  | nil => intro board mEv alpha beta t _; rfl
  | cons m rest ih =>
    intro board mEv alpha beta t hms
    have hempty := hms m (List.mem_cons_self m rest)
    have hrestore :
        ((child (board.set ((m.row * 15 + m.col).toNat) Player.Black) alpha beta t).2.1).set
            ((m.row * 15 + m.col).toNat) Player.None = board := by
      rw [hchild, List.set_set, set_get?_self hempty]
    unfold abLoopMin
    dsimp only
    rw [hrestore]
    split_ifs with h
    · rfl
    · exact ih board _ _ _ _ (fun x hx => hms x (List.mem_cons_of_mem m hx))

lemma minimax_board_eq (tc : Nat → Bool) :
    ∀ (depth : Nat) (board : List Player) (alpha beta : ExtScore) (mx : Bool) (t : Nat),
      (minimax tc board depth alpha beta mx t).2.1 = board := by
  intro depth
  induction depth with
  | zero =>
    intro board alpha beta mx t
    rw [minimax_eq]
    split_ifs <;> rfl
  | succ d ih =>
    intro board alpha beta mx t
    rw [minimax_eq]
    have hcand : ∀ m ∈ getCandidateMoves board,
        board.get? ((m.row * 15 + m.col).toNat) = some Player.None :=
      fun m hm => candidate_cell_empty hm
    split_ifs with h1 h2 h3 hmx
    · rfl
    · rfl
    · rfl
    · show (abLoopMax (fun b a bt u => minimax tc b d a bt false u) board
          (getCandidateMoves board) negInf alpha beta (t + 1)).2.1 = board
      exact abLoopMax_board_eq _ (fun b a bt u => ih b a bt false u) _ board _ _ _ _ hcand
    · show (abLoopMin (fun b a bt u => minimax tc b d a bt true u) board
          (getCandidateMoves board) posInf alpha beta (t + 1)).2.1 = board
      exact abLoopMin_board_eq _ (fun b a bt u => ih b a bt true u) _ board _ _ _ _ hcand

lemma rootLoop_board_eq (tc : Nat → Bool) (maxDepth : Nat) :
    ∀ (ms : List Move) (board : List Player) (best : Option Move)
      (bestScore alpha beta : ExtScore) (t : Nat),
      (∀ m ∈ ms, board.get? ((m.row * 15 + m.col).toNat) = some Player.None) →
      (rootLoop tc maxDepth board ms best bestScore alpha beta t).2.1 = board := by
  intro ms
  induction ms with
  | nil => intro board best bestScore alpha beta t _; rfl
  | cons m rest ih =>
    intro board best bestScore alpha beta t hms
    have hempty := hms m (List.mem_cons_self m rest)
    have hrestore :
        ((minimax tc (board.set ((m.row * 15 + m.col).toNat) Player.White) (maxDepth - 1)
              alpha beta false t).2.1).set ((m.row * 15 + m.col).toNat) Player.None = board := by
      rw [minimax_board_eq, List.set_set, set_get?_self hempty]
    unfold rootLoop
    dsimp only
    rw [hrestore]
    split_ifs <;>
      first
        | rfl
        | exact ih board _ _ _ _ _ (fun x hx => hms x (List.mem_cons_of_mem m hx))

/-- Claim C2: `getGeminiMove` returns the board argument bit-for-bit
unchanged — every speculative placement, at the root and inside `minimax`,
is undone before return, for every timing behaviour (including early
breaks) and every randomness value. -/
theorem spec_C2_board_restored :
    ∀ (board : List Player) (lastMove : Option Move) (tc : Nat → Bool) (rnd : Nat),
      (getGeminiMove board lastMove tc rnd).2 = board := by
  intro board lastMove tc rnd
  unfold getGeminiMove
  dsimp only
  split_ifs <;>
    first
      | rfl
      | exact rootLoop_board_eq tc _ _ board _ _ _ _ _
          (fun m hm => candidate_cell_empty (mem_sortByDist.mp hm))

/-! ## Search legality -/

lemma candidate_in_range {board : List Player} {m : Move}
    (h : m ∈ getCandidateMoves board) :
    0 ≤ m.row ∧ m.row < 15 ∧ 0 ≤ m.col ∧ m.col < 15 := by
  rw [mem_getCandidateMoves] at h
  obtain ⟨x, ⟨j, -, hnbr⟩, rfl⟩ := h
  obtain ⟨d, -, hb, -, hx⟩ := hnbr
  unfold inBoard at hb
  unfold idxOf at hx
  simp only
  omega

lemma getD_eq_get_of_lt {l : List Player} {j : Nat} (h : j < l.length) :
    l.getD j Player.None = l.get ⟨j, h⟩ := by
  rw [List.getD_eq_getD_get?, List.get?_eq_get h]
  rfl

lemma candidates_ne_nil (board : List Player) (hlen : board.length = 225)
    (hocc : ∃ j, j < 225 ∧ board.getD j Player.None ≠ Player.None)
    (hemp : ∃ i, i < 225 ∧ board.getD i Player.None = Player.None) :
    getCandidateMoves board ≠ [] := by
  intro hnil
  obtain ⟨j0, hj0, hj0occ⟩ := hocc
  obtain ⟨i0, hi0, hi0emp⟩ := hemp
  have hno : ∀ i j : Nat, i < 225 → j < 225 → board.getD j Player.None ≠ Player.None →
      board.getD i Player.None = Player.None → 2 < chebN i j := by
    intro i j hi hj hjocc hiemp
    by_contra hch
    push_neg at hch
    have hne : i ≠ j := fun hEq => hjocc (hEq ▸ hiemp)
    have hmem : (⟨((i / 15 : Nat) : Int), ((i % 15 : Nat) : Int)⟩ : Move)
        ∈ getCandidateMoves board := by
      rw [mem_getCandidateMoves]
      exact ⟨i, ⟨j, mem_occupiedIndices.mpr ⟨by omega, hjocc⟩,
        (nbrSpec_iff hj).mpr ⟨hi, (getD_none_iff (by omega)).mp hiemp, hch, hne⟩⟩, rfl⟩
    rw [hnil] at hmem
    exact absurd hmem (List.not_mem_nil _)
  have hall : ∀ k : Nat, ∀ i : Nat, i < 225 → chebN i j0 ≤ k →
      board.getD i Player.None ≠ Player.None := by
    intro k
    induction k with
    | zero =>
      intro i hi hch
      have hEq : i = j0 := by unfold chebN at hch; omega
      rwa [hEq]
    | succ k ih =>
      intro i hi hch
      by_cases hik : chebN i j0 ≤ k
      · exact ih i hi hik
      intro hiemp
      obtain ⟨i2, hi2, hch2, hch12⟩ :
          ∃ i2, i2 < 225 ∧ chebN i2 j0 ≤ k ∧ chebN i i2 ≤ 2 := by
        refine ⟨(if i / 15 < j0 / 15 then i / 15 + 1
              else if j0 / 15 < i / 15 then i / 15 - 1 else i / 15) * 15 +
            (if i % 15 < j0 % 15 then i % 15 + 1
              else if j0 % 15 < i % 15 then i % 15 - 1 else i % 15), ?_, ?_, ?_⟩
        · split_ifs <;> omega
        · unfold chebN at hch hik ⊢
          split_ifs <;> omega
        · unfold chebN
          split_ifs <;> omega
      have := hno i i2 hi hi2 (ih i2 hi2 hch2) hiemp
      omega
  exact hall (chebN i0 j0) i0 hi0 le_rfl hi0emp

lemma rootLoop_best_mem (tc : Nat → Bool) (maxDepth : Nat) :
    ∀ (ms : List Move) (board : List Player) (best : Option Move)
      (bestScore alpha beta : ExtScore) (t : Nat),
      (rootLoop tc maxDepth board ms best bestScore alpha beta t).1 = best ∨
        ∃ m ∈ ms, (rootLoop tc maxDepth board ms best bestScore alpha beta t).1 = some m := by
  intro ms
  induction ms with
  | nil => intro board best bestScore alpha beta t; exact Or.inl rfl
  | cons m rest ih =>
    intro board best bestScore alpha beta t
    unfold rootLoop
    dsimp only
    by_cases h1 : bestScore < (minimax tc (board.set ((m.row * 15 + m.col).toNat) Player.White)
        (maxDepth - 1) alpha beta false t).1
    · simp only [if_pos h1]
      by_cases h2 : tc (minimax tc (board.set ((m.row * 15 + m.col).toNat) Player.White)
          (maxDepth - 1) alpha beta false t).2.2 = true
      · rw [if_pos h2]
        exact Or.inr ⟨m, List.mem_cons_self m rest, rfl⟩
      · rw [if_neg h2]
        rcases ih _ (some m) _ _ _ _ with h | ⟨x, hx, h⟩
        · rw [h]
          exact Or.inr ⟨m, List.mem_cons_self m rest, rfl⟩
        · exact Or.inr ⟨x, List.mem_cons_of_mem m hx, h⟩
    · simp only [if_neg h1]
      by_cases h2 : tc (minimax tc (board.set ((m.row * 15 + m.col).toNat) Player.White)
          (maxDepth - 1) alpha beta false t).2.2 = true
      · rw [if_pos h2]
        exact Or.inl rfl
      · rw [if_neg h2]
        rcases ih _ best _ _ _ _ with h | ⟨x, hx, h⟩
        · exact Or.inl h
        · exact Or.inr ⟨x, List.mem_cons_of_mem m hx, h⟩

lemma getD_mem_of_lt {l : List Move} {n : Nat} {d : Move} (h : n < l.length) :
    l.getD n d ∈ l := by
  rw [List.getD_eq_getD_get?, List.get?_eq_get h]
  exact List.get_mem l _ h

/-- Claim C1, amended: on a 15×15 board with at least one occupied and at
least one `Empty` cell, the `aiLogic.ts` `getGeminiMove` (which ignores
its `apiKey`) always returns a move — for every timing and randomness
behaviour — and the move is in range with an `Empty` target cell in the
board it was invoked on; the `part_003` variant returns exactly the same
engine result without throwing whenever its security gate passes (the key
is not blank and the live verification succeeds).  As frozen, the claim
is false for the cited `part_003` variant, which throws for a blank or
unverified key even on such boards (see the counterexample). -/
theorem spec_C1_search_returns_legal_move :
    ∀ (board : List Player) (lastMove : Option Move) (tc : Nat → Bool) (rnd : Nat),
      board.length = 225 →
      (∃ j, j < 225 ∧ board.getD j Player.None ≠ Player.None) →
      (∃ i, i < 225 ∧ board.getD i Player.None = Player.None) →
      (∃ m : Move, (getGeminiMove board lastMove tc rnd).1 = some m ∧
        0 ≤ m.row ∧ m.row < 15 ∧ 0 ≤ m.col ∧ m.col < 15 ∧
        board.get? ((m.row * 15 + m.col).toNat) = some Player.None) ∧
      (∀ apiKey : String, apiKeyBlank apiKey = false →
        getGeminiMoveSecured board lastMove apiKey true tc rnd
          = Except.ok (getGeminiMove board lastMove tc rnd)) := by
  intro board lastMove tc rnd hlen hocc hemp
  refine ⟨?_, ?_⟩
  case refine_2 =>
    intro apiKey hk
    unfold getGeminiMoveSecured
    rw [if_neg (by simp [hk]), if_neg (by simp)]
  have hocc0 : ¬ ((board.filter fun c => decide (c ≠ Player.None)).length = 0) := by
    obtain ⟨j, hj, hjocc⟩ := hocc
    intro h0
    rw [List.length_eq_zero] at h0
    have hjlen : j < board.length := by omega
    have hmem : board.get ⟨j, hjlen⟩ ∈ board.filter fun c => decide (c ≠ Player.None) :=
      List.mem_filter.mpr ⟨List.get_mem board j hjlen, by
        rw [decide_eq_true_eq, ← getD_eq_get_of_lt hjlen]
        exact hjocc⟩
    rw [h0] at hmem
    exact absurd hmem (List.not_mem_nil _)
  have hcne : getCandidateMoves board ≠ [] := candidates_ne_nil board hlen hocc hemp
  have hsne : sortByDist lastMove (getCandidateMoves board) ≠ [] := by
    intro h0
    apply hcne
    rw [List.eq_nil_iff_forall_not_mem] at h0 ⊢
    intro x hx
    exact h0 x (mem_sortByDist.mpr hx)
  unfold getGeminiMove
  dsimp only
  rw [if_neg hocc0]
  rcases rootLoop_best_mem tc (if 20 < (getCandidateMoves board).length then 2 else 4)
      (sortByDist lastMove (getCandidateMoves board)) board Option.none negInf negInf posInf 0
    with hres | ⟨x, hx, hres⟩
  · rw [if_pos ⟨hres, hsne⟩]
    have hlenpos : 0 < (sortByDist lastMove (getCandidateMoves board)).length :=
      List.length_pos.mpr hsne
    have hmem : (sortByDist lastMove (getCandidateMoves board)).getD
        (rnd % (sortByDist lastMove (getCandidateMoves board)).length) ⟨7, 7⟩
          ∈ getCandidateMoves board :=
      mem_sortByDist.mp (getD_mem_of_lt (Nat.mod_lt _ hlenpos))
    exact ⟨_, rfl, (candidate_in_range hmem).1, (candidate_in_range hmem).2.1,
      (candidate_in_range hmem).2.2.1, (candidate_in_range hmem).2.2.2,
      candidate_cell_empty hmem⟩
  · rw [if_neg (by rw [hres]; simp)]
    have hmem : x ∈ getCandidateMoves board := mem_sortByDist.mp hx
    exact ⟨x, hres, (candidate_in_range hmem).1, (candidate_in_range hmem).2.1,
      (candidate_in_range hmem).2.2.1, (candidate_in_range hmem).2.2.2,
      candidate_cell_empty hmem⟩

/-- Witness for C1 on the one-stone board with immediate timeout, a fixed
randomness value, and a concrete non-blank key with passing
verification. -/
theorem spec_C1_search_returns_legal_move_witness :
    (∃ m : Move, (getGeminiMove oneStoneBoard (some ⟨7, 7⟩) (fun _ => true) 3).1 = some m ∧
      0 ≤ m.row ∧ m.row < 15 ∧ 0 ≤ m.col ∧ m.col < 15 ∧
      oneStoneBoard.get? ((m.row * 15 + m.col).toNat) = some Player.None) ∧
    getGeminiMoveSecured oneStoneBoard (some ⟨7, 7⟩) "AIza-test-key" true (fun _ => true) 3
      = Except.ok (getGeminiMove oneStoneBoard (some ⟨7, 7⟩) (fun _ => true) 3) := by
  have h := spec_C1_search_returns_legal_move oneStoneBoard (some ⟨7, 7⟩) (fun _ => true) 3
    (by unfold oneStoneBoard; rw [List.length_set, List.length_replicate])
    ⟨112, by decide, by decide⟩ ⟨0, by decide, by decide⟩
  exact ⟨h.1, h.2 "AIza-test-key" (by decide)⟩

/-- Counterexample for C1 as frozen: the one-stone board satisfies the
claim's hypotheses (one occupied cell, 224 `Empty` cells), yet the cited
`part_003` variant of `getGeminiMove` throws its security error when the
`apiKey` is blank, instead of returning a move. -/
theorem spec_C1_security_gate_counterexample :
    oneStoneBoard.length = 225 ∧
    (∃ j, j < 225 ∧ oneStoneBoard.getD j Player.None ≠ Player.None) ∧
    (∃ i, i < 225 ∧ oneStoneBoard.getD i Player.None = Player.None) ∧
    getGeminiMoveSecured oneStoneBoard (some ⟨7, 7⟩) "" false (fun _ => false) 0
      = Except.error
        "SECURITY_ERR_AUTH_REQUIRED: Valid API Key is required to execute AI logic." :=
  ⟨by unfold oneStoneBoard; rw [List.length_set, List.length_replicate],
   ⟨112, by decide, by decide⟩, ⟨0, by decide, by decide⟩, rfl⟩

/-! ## Win detection -/

lemma scanRun_succ (board : List Player) (player : Player) (dr dc r c : Int) (f : Nat) :
    scanRun board player dr dc r c (f + 1) =
      if inBoard r c then
        if board.get? (idxOf r c) = some player then
          idxOf r c :: scanRun board player dr dc (r + dr) (c + dc) f
        else []
      else [] := rfl

lemma scanRun_sound (board : List Player) (player : Player) (dr dc : Int) :
    ∀ (fuel : Nat) (r c : Int) (i : Nat), i < (scanRun board player dr dc r c fuel).length →
      inBoard (r + i * dr) (c + i * dc) ∧
      board.get? (idxOf (r + i * dr) (c + i * dc)) = some player := by
  intro fuel
  induction fuel with
  | zero => intro r c i h; simp [scanRun] at h
  | succ f ih =>
    intro r c i h
    rw [scanRun_succ] at h
    by_cases h1 : inBoard r c
    · rw [if_pos h1] at h
      by_cases h2 : board.get? (idxOf r c) = some player
      · rw [if_pos h2] at h
        simp only [List.length_cons] at h
        cases i with
        | zero =>
          simp only [Nat.cast_zero, zero_mul, add_zero]
          exact ⟨h1, h2⟩
        | succ j =>
          have hs := ih (r + dr) (c + dc) j (by omega)
          have e1 : r + ((j + 1 : Nat) : Int) * dr = r + dr + (j : Int) * dr := by
            push_cast; ring
          have e2 : c + ((j + 1 : Nat) : Int) * dc = c + dc + (j : Int) * dc := by
            push_cast; ring
          rw [e1, e2]
          exact hs
      · rw [if_neg h2] at h; simp at h
    · rw [if_neg h1] at h; simp at h

lemma scanRun_length_ge (board : List Player) (player : Player) (dr dc : Int) :
    ∀ (fuel m : Nat) (r c : Int),
      (∀ i : Nat, i < m → inBoard (r + i * dr) (c + i * dc) ∧
        board.get? (idxOf (r + i * dr) (c + i * dc)) = some player) →
      min m fuel ≤ (scanRun board player dr dc r c fuel).length := by
  intro fuel
  induction fuel with
  | zero => intro m r c _; simp
  | succ f ih =>
    intro m r c h
    cases m with
    | zero => simp
    | succ m2 =>
      have h0 := h 0 (by omega)
      simp only [Nat.cast_zero, zero_mul, add_zero] at h0
      rw [scanRun_succ, if_pos h0.1, if_pos h0.2]
      simp only [List.length_cons]
      have hrest : ∀ i : Nat, i < m2 → inBoard (r + dr + i * dr) (c + dc + i * dc) ∧
          board.get? (idxOf (r + dr + i * dr) (c + dc + i * dc)) = some player := by
        intro i hi
        have hs := h (i + 1) (by omega)
        have e1 : r + ((i + 1 : Nat) : Int) * dr = r + dr + (i : Int) * dr := by
          push_cast; ring
        have e2 : c + ((i + 1 : Nat) : Int) * dc = c + dc + (i : Int) * dc := by
          push_cast; ring
        rw [e1, e2] at hs
        exact hs
      have := ih m2 (r + dr) (c + dc) hrest
      omega

lemma checkWinDir_isSome {board : List Player} {player : Player} {lr lc : Int} {li : Nat}
    {d : Int × Int} :
    (checkWinDir board player lr lc li d).isSome ↔
      5 ≤ 1 + (scanRun board player d.1 d.2 (lr + d.1) (lc + d.2) 4).length +
        (scanRun board player (-d.1) (-d.2) (lr - d.1) (lc - d.2) 4).length := by
  unfold checkWinDir
  dsimp only
  split_ifs with h
  · simp [h]
  · simp [h]

lemma checkWinFrom_isSome (board : List Player) (player : Player) (lr lc : Int) (li : Nat) :
    ∀ ds : List (Int × Int), (checkWinFrom board player lr lc li ds).isSome ↔
      ∃ d ∈ ds, (checkWinDir board player lr lc li d).isSome := by
  intro ds
  induction ds with
  | nil => simp [checkWinFrom]
  | cons d ds ih =>
    show (match checkWinDir board player lr lc li d with
      | some l => some l
      | none => checkWinFrom board player lr lc li ds).isSome ↔ _
    cases hd : checkWinDir board player lr lc li d with
    | some l =>
      constructor
      · intro
        exact ⟨d, List.mem_cons_self d ds, by rw [hd]; rfl⟩
      · intro
        rfl
    | none =>
      dsimp only
      rw [ih]
      constructor
      · rintro ⟨e, he, hsome⟩
        exact ⟨e, List.mem_cons_of_mem d he, hsome⟩
      · rintro ⟨e, he, hsome⟩
        rcases List.mem_cons.mp he with rfl | he2
        · rw [hd] at hsome
          simp at hsome
        · exact ⟨e, he2, hsome⟩

lemma run_of_counts (board : List Player) (player : Player) (ar ac dr dc : Int)
    (hin : inBoard ar ac) (hcell : board.get? (idxOf ar ac) = some player)
    (hcount : 4 ≤ (scanRun board player dr dc (ar + dr) (ac + dc) 4).length +
      (scanRun board player (-dr) (-dc) (ar - dr) (ac - dc) 4).length) :
    ∃ p n : Nat, 4 ≤ p + n ∧ runAll board player ar ac dr dc p n := by
  refine ⟨(scanRun board player dr dc (ar + dr) (ac + dc) 4).length,
    (scanRun board player (-dr) (-dc) (ar - dr) (ac - dc) 4).length, hcount, ?_⟩
  intro k hk1 hk2
  rcases lt_trichotomy k 0 with hk | hk | hk
  · have hi : ((-k - 1).toNat)
        < (scanRun board player (-dr) (-dc) (ar - dr) (ac - dc) 4).length := by omega
    have hs := scanRun_sound board player (-dr) (-dc) 4 (ar - dr) (ac - dc) _ hi
    have hcast : (((-k - 1).toNat : Nat) : Int) = -k - 1 := by omega
    have e1 : ar - dr + (((-k - 1).toNat : Nat) : Int) * (-dr) = ar + k * dr := by
      rw [hcast]; ring
    have e2 : ac - dc + (((-k - 1).toNat : Nat) : Int) * (-dc) = ac + k * dc := by
      rw [hcast]; ring
    rw [e1, e2] at hs
    exact hs
  · subst hk
    simp only [zero_mul, add_zero]
    exact ⟨hin, hcell⟩
  · have hi : ((k - 1).toNat)
        < (scanRun board player dr dc (ar + dr) (ac + dc) 4).length := by omega
    have hs := scanRun_sound board player dr dc 4 (ar + dr) (ac + dc) _ hi
    have hcast : (((k - 1).toNat : Nat) : Int) = k - 1 := by omega
    have e1 : ar + dr + (((k - 1).toNat : Nat) : Int) * dr = ar + k * dr := by
      rw [hcast]; ring
    have e2 : ac + dc + (((k - 1).toNat : Nat) : Int) * dc = ac + k * dc := by
      rw [hcast]; ring
    rw [e1, e2] at hs
    exact hs

lemma counts_of_run (board : List Player) (player : Player) (ar ac dr dc : Int) (p n : Nat)
    (hrun : runAll board player ar ac dr dc p n) :
    min p 4 ≤ (scanRun board player dr dc (ar + dr) (ac + dc) 4).length ∧
      min n 4 ≤ (scanRun board player (-dr) (-dc) (ar - dr) (ac - dc) 4).length := by
  constructor
  · refine scanRun_length_ge board player dr dc 4 p (ar + dr) (ac + dc) ?_
    intro i hi
    have hs := hrun ((i : Int) + 1) (by omega) (by omega)
    have e1 : ar + ((i : Int) + 1) * dr = ar + dr + (i : Int) * dr := by ring
    have e2 : ac + ((i : Int) + 1) * dc = ac + dc + (i : Int) * dc := by ring
    rw [e1, e2] at hs
    exact hs
  · refine scanRun_length_ge board player (-dr) (-dc) 4 n (ar - dr) (ac - dc) ?_
    intro i hi
    have hs := hrun (-((i : Int) + 1)) (by omega) (by omega)
    have e1 : ar + -((i : Int) + 1) * dr = ar - dr + (i : Int) * (-dr) := by ring
    have e2 : ac + -((i : Int) + 1) * dc = ac - dc + (i : Int) * (-dc) := by ring
    rw [e1, e2] at hs
    exact hs

lemma checkWin_isSome_iff (board : List Player) (player : Player) (anchor : Nat)
    (h1 : anchor < 225) (h2 : board.get? anchor = some player) :
    (checkWin board (anchor : Int) player).isSome ↔ hasRun5 board player anchor := by
  unfold checkWin
  rw [if_neg (by omega)]
  dsimp only
  rw [Int.toNat_natCast, checkWinFrom_isSome]
  unfold hasRun5
  have hin : inBoard ((anchor / 15 : Nat) : Int) ((anchor % 15 : Nat) : Int) := by
    unfold inBoard
    refine ⟨by omega, by omega, by omega, by omega⟩
  have hcell : board.get? (idxOf ((anchor / 15 : Nat) : Int) ((anchor % 15 : Nat) : Int))
      = some player := by
    rw [show idxOf ((anchor / 15 : Nat) : Int) ((anchor % 15 : Nat) : Int) = anchor from by
      unfold idxOf; omega]
    exact h2
  constructor
  · rintro ⟨d, hd, hsome⟩
    rw [checkWinDir_isSome] at hsome
    obtain ⟨p, n, hpn, hrun⟩ :=
      run_of_counts board player _ _ d.1 d.2 hin hcell (by omega)
    exact ⟨d, hd, p, n, hpn, hrun⟩
  · rintro ⟨d, hd, p, n, hpn, hrun⟩
    refine ⟨d, hd, ?_⟩
    rw [checkWinDir_isSome]
    have := counts_of_run board player _ _ d.1 d.2 p n hrun
    omega

/-- Claim C3: anchored win detection.  (a) In general, for an anchor cell
holding the checked player's stone, `checkWin` reports a win exactly when
a contiguous run of at least 5 same-player cells passes through the
anchor along one of the 4 directions.  (b) Placing exactly 5 stones in an
unbroken line — in each of the four directions — and checking from the
last-placed cell returns exactly those 5 cell indices (shown for anchors
at both ends and in the middle of the horizontal run).  (c) A run of only
4 returns null from every anchor of the run, and (d) a run of 5
interrupted by an opposing stone returns null. -/
theorem spec_C3_anchored_win_detection :
    (∀ (board : List Player) (player : Player) (anchor : Nat),
        anchor < 225 → board.get? anchor = some player →
        ((checkWin board (anchor : Int) player).isSome ↔ hasRun5 board player anchor)) ∧
    (checkWin hRunBoard 110 Player.Black = some [110, 111, 112, 113, 114] ∧
      checkWin hRunBoard 112 Player.Black = some [112, 113, 114, 111, 110] ∧
      checkWin hRunBoard 114 Player.Black = some [114, 113, 112, 111, 110] ∧
      checkWin vRunBoard 112 Player.Black = some [112, 97, 82, 67, 52] ∧
      checkWin drRunBoard 112 Player.Black = some [112, 96, 80, 64, 48] ∧
      checkWin dlRunBoard 112 Player.Black = some [112, 98, 84, 70, 56]) ∧
    (checkWin fourRunBoard 110 Player.Black = Option.none ∧
      checkWin fourRunBoard 111 Player.Black = Option.none ∧
      checkWin fourRunBoard 112 Player.Black = Option.none ∧
      checkWin fourRunBoard 113 Player.Black = Option.none) ∧
    (checkWin brokenRunBoard 110 Player.Black = Option.none ∧
      checkWin brokenRunBoard 111 Player.Black = Option.none ∧
      checkWin brokenRunBoard 113 Player.Black = Option.none ∧
      checkWin brokenRunBoard 114 Player.Black = Option.none) := by
  refine ⟨checkWin_isSome_iff, by decide, by decide, by decide⟩

/-- Witness for C3: the general equivalence applied to the horizontal
five-run board yields a run-of-five through cell 112. -/
theorem spec_C3_anchored_win_detection_witness :
    hasRun5 hRunBoard Player.Black 112 :=
  (spec_C3_anchored_win_detection.1 hRunBoard Player.Black 112 (by decide) (by decide)).mp
    (by decide)
